import Mathlib

/-!
Verification of the change-identification-and-application engine of a
Playwright project scaffolder (`src/generator.ts`).

The development shallowly embeds the pieces of `Generator` that the claims
are about:

* `_patchGitIgnore` (lines 279-304): line-oriented patching of an existing
  `.gitignore`.  JavaScript strings are modelled as `List Char`; the
  multiline regexes `/^.../m` are modelled as decidable predicates on the
  `'\n'`-separated segments of the content; `String.prototype.trimEnd` is
  modelled by dropping trailing whitespace characters.
* `_patchPackageJSON` (lines 310-324) and `_hasDependency` (lines 270-277):
  JSON documents are modelled by an inductive `Json` type (the result of
  `JSON.parse`; a file that does not parse is `Option.none`), and
  `JSON.stringify(x, null, 2)` by a structurally recursive serializer.
* `_identifyChanges` (lines 163-268): the command planner, parameterised by
  the externally supplied `PackageManager` capability record.
* `run` (lines 57-74): the orchestrator, modelled as the trace of observable
  events it performs.
-/

/-! ### Characters and lines -/

/-- First line of a character list and the remaining lines, splitting at
`'\n'`.  `splitNLh cs = (first line, later lines)`. -/
def splitNLh : List Char → List Char × List (List Char)
  | [] => ([], [])
  | c :: cs =>
    let r := splitNLh cs
    if c = '\n' then ([], r.1 :: r.2) else (c :: r.1, r.2)

/-- All `'\n'`-separated segments of a character list; always nonempty.
These are exactly the positions at which a `/m` (multiline) JavaScript
regex anchors `^` and `$`. -/
def splitNL (cs : List Char) : List (List Char) :=
  (splitNLh cs).1 :: (splitNLh cs).2

/-- Model of JavaScript `String.prototype.trimEnd`: drop trailing
whitespace characters. -/
def jsTrimEnd (cs : List Char) : List Char :=
  (cs.reverse.dropWhile Char.isWhitespace).reverse

/-- A multiline-anchored pattern matches the content iff it matches one of
its line segments. -/
def matchesPat (g : List Char) (p : List Char → Bool) : Bool :=
  (splitNL g).any p

/-! ### The `.gitignore` patch (`Generator._patchGitIgnore`) -/

/-- One required `.gitignore` entry: the literal line that is appended when
missing, and the tolerant pattern that recognises the entry as already
present. -/
structure IgnoreEntry where
  lit : List Char
  pat : List Char → Bool

/-- Pattern `/^node_modules\/?/m`: a line starting with `node_modules`
(the optional trailing slash is not anchored, so only the prefix matters). -/
def nodeModulesPat (l : List Char) : Bool :=
  "node_modules".data.isPrefixOf l

/-- Pattern `/^\/?test-results\/?$/m`: the whole line, with optional leading
and trailing slash. -/
def testResultsPat (l : List Char) : Bool :=
  l == "test-results".data || l == "/test-results".data ||
  l == "test-results/".data || l == "/test-results/".data

/-- Pattern `/^\/playwright-report\/?$/m`. -/
def playwrightReportPat (l : List Char) : Bool :=
  l == "/playwright-report".data || l == "/playwright-report/".data

/-- Pattern `/^\/blob-report\/?$/m`. -/
def blobReportPat (l : List Char) : Bool :=
  l == "/blob-report".data || l == "/blob-report/".data

/-- Pattern `/^\/playwright\/\.cache\/?$/m`. -/
def playwrightCachePat (l : List Char) : Bool :=
  l == "/playwright/.cache".data || l == "/playwright/.cache/".data

/-- The `valuesToAdd` table of `_patchGitIgnore`, in source order. -/
def gitIgnoreEntries : List IgnoreEntry :=
  [⟨"node_modules/".data, nodeModulesPat⟩,
   ⟨"/test-results/".data, testResultsPat⟩,
   ⟨"/playwright-report/".data, playwrightReportPat⟩,
   ⟨"/blob-report/".data, blobReportPat⟩,
   ⟨"/playwright/.cache/".data, playwrightCachePat⟩]

/-- The heading comment inserted before the first missing entry:
`"\n# Playwright\n"`. -/
def headingChunk : List Char := "\n# Playwright\n".data

/-- One step of the `Object.entries(valuesToAdd).forEach` loop: state is the
current content together with the `thisIsTheFirstLineWeAreAdding` flag. -/
def patchStep (st : List Char × Bool) (e : IgnoreEntry) : List Char × Bool :=
  if matchesPat st.1 e.pat then st
  else (st.1 ++ (if st.2 then headingChunk else []) ++ e.lit ++ ['\n'], false)

/-- Initial content: an absent file is the empty string, an existing file is
read and normalised by `trimEnd() + '\n'`. -/
def normalizeGitIgnore : Option (List Char) → List Char
  | none => []
  | some cs => jsTrimEnd cs ++ ['\n']

/-- `_patchGitIgnore` on character lists: the content written back given the
content found on disk (`none` when the file does not exist). -/
def patchGitIgnoreL (c : Option (List Char)) : List Char :=
  (gitIgnoreEntries.foldl patchStep (normalizeGitIgnore c, true)).1

/-- `_patchGitIgnore` at the `String` level. -/
def patchGitIgnore (c : Option String) : String :=
  String.mk (patchGitIgnoreL (c.map String.data))

/-! ### JSON documents (`JSON.parse` results) -/

/-- A parsed JSON document.  Numbers are restricted to integers (the only
numbers the patched manifests contain); object fields keep their order, as
JavaScript objects and `JSON.stringify` do. -/
inductive Json where
  | null
  | bool (b : Bool)
  | num (n : Int)
  | str (s : String)
  | arr (xs : List Json)
  | obj (kvs : List (String × Json))

/-- JavaScript truthiness of a property access result (`undefined` is
`none`). -/
def jsTruthyOpt : Option Json → Bool
  | none => false
  | some Json.null => false
  | some (Json.bool b) => b
  | some (Json.num n) => n != 0
  | some (Json.str s) => s != ""
  | some (Json.arr _) => true
  | some (Json.obj _) => true

/-- First binding of a key in an ordered field list. -/
def objGet : List (String × Json) → String → Option Json
  | [], _ => none
  | (k', v) :: rest, k => if k' = k then some v else objGet rest k

/-- JavaScript property assignment on an object: an existing key keeps its
slot, a new key is appended. -/
def objSet : List (String × Json) → String → Json → List (String × Json)
  | [], k, v => [(k, v)]
  | (k', v') :: rest, k, v =>
    if k' = k then (k', v) :: rest else (k', v') :: objSet rest k v

/-- JavaScript `delete obj[k]`. -/
def objDel (kvs : List (String × Json)) (k : String) : List (String × Json) :=
  kvs.filter (fun kv => kv.1 ≠ k)

/-- Replace the value bound to the first occurrence of a key. -/
def objModify : List (String × Json) → String → (Json → Json) → List (String × Json)
  | [], _, _ => []
  | (k', v') :: rest, k, f =>
    if k' = k then (k', f v') :: rest else (k', v') :: objModify rest k f

/-- JavaScript property read `j[k]` for the property names the generator
uses (`undefined` on non-objects). -/
def jsGet : Json → String → Option Json
  | Json.obj kvs, k => objGet kvs k
  | _, _ => none

/-! ### `JSON.stringify(x, null, 2)` -/

/-- `n` space characters. -/
def spacesN (n : Nat) : List Char := List.replicate n ' '

/-- Decimal digit character. -/
def digitCh (n : Nat) : Char := "0123456789".data.getD n '0'

/-- Hexadecimal digit character. -/
def hexCh (n : Nat) : Char := "0123456789abcdef".data.getD n '0'

/-- Decimal digits of a natural number, most significant first. -/
def natDigits (n : Nat) : List Char :=
  if _hlt : n < 10 then [digitCh n]
  else natDigits (n / 10) ++ [digitCh (n % 10)]
decreasing_by exact Nat.div_lt_self (by omega) (by omega)

/-- JSON rendering of an integer. -/
def renderInt : Int → List Char
  | Int.ofNat n => natDigits n
  | Int.negSucc n => '-' :: natDigits (n + 1)

/-- JSON escaping of one character inside a string literal. -/
def escapeChar (c : Char) : List Char :=
  if c = '"' then ['\\', '"']
  else if c = '\\' then ['\\', '\\']
  else if c = '\x08' then ['\\', 'b']
  else if c = '\x09' then ['\\', 't']
  else if c = '\x0a' then ['\\', 'n']
  else if c = '\x0c' then ['\\', 'f']
  else if c = '\x0d' then ['\\', 'r']
  else if c.toNat < 32 then
    ['\\', 'u', '0', '0', hexCh (c.toNat / 16), hexCh (c.toNat % 16)]
  else [c]

/-- JSON rendering of a string literal. -/
def renderStr (s : String) : List Char :=
  '"' :: (s.data.flatMap escapeChar) ++ ['"']

mutual

/-- `JSON.stringify(x, null, 2)` at nesting indentation `ind`, producing
characters. -/
def serializeJson : Json → Nat → List Char
  | Json.null, _ => "null".data
  | Json.bool true, _ => "true".data
  | Json.bool false, _ => "false".data
  | Json.num i, _ => renderInt i
  | Json.str s, _ => renderStr s
  | Json.arr [], _ => ['[', ']']
  | Json.arr (x :: xs), ind =>
    '[' :: '\n' :: serializeItems (x :: xs) (ind + 2) ++ '\n' :: spacesN ind ++ [']']
  | Json.obj [], _ => ['\x7b', '\x7d']
  | Json.obj (kv :: kvs), ind =>
    '\x7b' :: '\n' :: serializeFields (kv :: kvs) (ind + 2) ++ '\n' :: spacesN ind ++ ['\x7d']

/-- Array items, one per line, comma separated. -/
def serializeItems : List Json → Nat → List Char
  | [], _ => []
  | [x], ind => spacesN ind ++ serializeJson x ind
  | x :: y :: xs, ind =>
    spacesN ind ++ serializeJson x ind ++ ',' :: '\n' :: serializeItems (y :: xs) ind

/-- Object fields, one per line, comma separated, `"key": value`. -/
def serializeFields : List (String × Json) → Nat → List Char
  | [], _ => []
  | [(k, v)], ind => spacesN ind ++ renderStr k ++ ':' :: ' ' :: serializeJson v ind
  | (k, v) :: kv :: kvs, ind =>
    spacesN ind ++ renderStr k ++ ':' :: ' ' :: serializeJson v ind ++
      ',' :: '\n' :: serializeFields (kv :: kvs) ind

end

/-- Top-level serialization as a `String`. -/
def stringifyJson (j : Json) : String := String.mk (serializeJson j 0)

/-! ### The generator's input records -/

/-- The two supported languages (the `language` union of `PromptOptions`;
named `Lang` because `Language` is taken by Mathlib). -/
inductive Lang where
  | typescript
  | javascript
deriving DecidableEq, Repr

/-- The supported component-testing frameworks. -/
inductive Framework where
  | react
  | react17
  | vue
  | vue2
  | svelte
  | solid
deriving DecidableEq, Repr

/-- Modelled from the spec: `languageToFileExtension` lives in
`src/utils.ts`, which is not part of the given sources; the spec fixes the
languages JavaScript/TypeScript and names generated configuration files
`playwright.config.<ext>` with the language's file extension. -/
def languageToFileExtension : Lang → String
  | Lang.typescript => "ts"
  | Lang.javascript => "js"

/-- The resolved `PromptOptions` record (the `Answers` of the spec). -/
structure PromptOptions where
  testDir : String
  installGitHubActions : Bool
  language : Lang
  framework : Option Framework
  installPlaywrightDependencies : Bool
  installPlaywrightBrowsers : Bool

/-- The CLI argument record `Partial<Record<CliArgumentKey, string[]>>`:
a present key holds the (possibly empty) list of values and is truthy. -/
structure CliOptions where
  browser : Option (List String) := none
  noBrowsers : Option (List String) := none
  noExamples : Option (List String) := none
  next : Option (List String) := none
  beta : Option (List String) := none
  ct : Option (List String) := none
  quiet : Option (List String) := none
  gha : Option (List String) := none
  installDeps : Option (List String) := none
  lang : Option (List String) := none

/-- The externally supplied package-manager capability record: each field is
the ready-to-run shell string (builder) the planner consumes. -/
structure PackageManager where
  name : String
  cli : String
  init : String
  installDevDependency : String → String
  npx : String → String → String

/-! ### The manifest patch (`Generator._patchPackageJSON`) -/

/-- `packageJSON.scripts = {}`: property assignment on the parsed document.
On an object the key is set; on an array the assignment succeeds as an
expando property — JavaScript arrays are objects — which `JSON.stringify`
drops and which every later read in the run sees exactly as the empty
object the pipeline assumes, so at the document level the array is
unchanged; on a primitive (or on `null`, where already the read of
`.scripts` throws) the run fails with a TypeError, as strict-mode
JavaScript does. -/
def setTopScripts : Json → Except String Json
  | Json.obj kvs => Except.ok (Json.obj (objSet kvs "scripts" (Json.obj [])))
  | Json.arr xs => Except.ok (Json.arr xs)
  | _ => Except.error "TypeError: cannot create property on a primitive"

/-- `needle.isPrefixOf` scanned along the haystack: JavaScript
`String.prototype.includes`. -/
def hasSubstr (needle : List Char) : List Char → Bool
  | [] => needle.isPrefixOf []
  | c :: cs => needle.isPrefixOf (c :: cs) || hasSubstr needle cs

/-- `packageJSON.scripts['test']?.includes('no test specified')`: the
optional chaining skips `null`/`undefined`; strings test for a substring,
arrays for an equal element; other values have no `includes` method. -/
def includesNoTest : Option Json → Except String Bool
  | none => Except.ok false
  | some Json.null => Except.ok false
  | some (Json.str s) =>
    Except.ok (hasSubstr "no test specified".data s.data)
  | some (Json.arr xs) =>
    Except.ok (xs.any (fun x => match x with
      | Json.str s => s = "no test specified"
      | _ => false))
  | some _ => Except.error "TypeError: includes is not a function"

/-- `delete scripts['test']` applied to the scripts value (a no-op on
non-objects). -/
def scriptsDelTest : Json → Json
  | Json.obj kvs => Json.obj (objDel kvs "test")
  | v => v

/-- `scripts['test-ct'] = cmd`: property assignment on the scripts value.
On an object the key is set; on an array the assignment succeeds as an
expando property (arrays are objects) that `JSON.stringify` drops and that
nothing reads afterwards, so the array value is unchanged at the document
level; on a truthy primitive the strict-mode assignment throws. -/
def scriptsSetTestCT (sv : Json) (cmd : String) : Except String Json :=
  match sv with
  | Json.obj kvs => Except.ok (Json.obj (objSet kvs "test-ct" (Json.str cmd)))
  | Json.arr xs => Except.ok (Json.arr xs)
  | _ => Except.error "TypeError: cannot create property on a primitive"

/-- The fixed `test-ct` invocation string for a language's configuration
extension. -/
def testCTCommand (lang : Lang) : String :=
  "playwright test -c playwright-ct.config." ++ languageToFileExtension lang

/-- `if (packageJSON.scripts['test']?.includes('no test specified')) delete
packageJSON.scripts['test']`: when the placeholder was found, delete the
`test` key inside the `scripts` value. -/
def applyDelTest (b : Bool) (m1 : Json) : Json :=
  if b then
    (match m1 with
     | Json.obj kvs => Json.obj (objModify kvs "scripts" scriptsDelTest)
     | j => j)
  else m1

/-- `packageJSON.scripts['test-ct'] = cmd`: reads the `scripts` property and
assigns the `test-ct` property on it.  On an array document the read finds
the `scripts` expando that `setTopScripts` put there (the document is an
array only when its `scripts` read was falsy and the expando assignment
succeeded), the assignment lands in that expando, and serialization drops
it, so the array is unchanged at the document level; on a primitive
document the read yields `undefined` and the indexing assignment throws. -/
def applySetTestCT (m2 : Json) (cmd : String) : Except String Json :=
  match m2 with
  | Json.obj kvs =>
    match objGet kvs "scripts" with
    | some sv =>
      match scriptsSetTestCT sv cmd with
      | Except.error e => Except.error e
      | Except.ok sv' => Except.ok (Json.obj (objModify kvs "scripts" (fun _ => sv')))
    | none => Except.error "TypeError: cannot set properties of undefined"
  | Json.arr xs => Except.ok (Json.arr xs)
  | _ => Except.error "TypeError: cannot create property on a primitive"

/-- The body of `_patchPackageJSON` on a parsed manifest: ensure a truthy
`scripts`, drop a placeholder `test` script, and, when a framework was
selected, set the `test-ct` script. -/
def patchPackageJSONCore (m : Json) (a : PromptOptions) : Except String Json :=
  match (if jsTruthyOpt (jsGet m "scripts") then Except.ok m else setTopScripts m) with
  | Except.error e => Except.error e
  | Except.ok m1 =>
    match includesNoTest ((jsGet m1 "scripts").bind (fun sv => jsGet sv "test")) with
    | Except.error e => Except.error e
    | Except.ok b =>
      if a.framework.isSome then
        applySetTestCT (applyDelTest b m1) (testCTCommand a.language)
      else Except.ok (applyDelTest b m1)

/-- `_patchPackageJSON`: reads and parses `package.json` (a missing or
unparseable file is `none` and makes `JSON.parse` throw), patches it, and
produces the re-serialized content written back
(`JSON.stringify(packageJSON, null, 2) + '\n'`). -/
def patchPackageJSON (parsed : Option Json) (a : PromptOptions) :
    Except String (Json × String) :=
  match parsed with
  | none => Except.error "SyntaxError: JSON.parse: unexpected input"
  | some m =>
    match patchPackageJSONCore m a with
    | Except.error e => Except.error e
    | Except.ok m' => Except.ok (m', stringifyJson m' ++ "\n")

/-- The shape every successful output of `patchPackageJSONCore` has, and
which makes a second application a no-op: either a top-level array (every
mutation of it was an expando that serialization drops), or a top-level
object whose `scripts` binding exists and is truthy, whose `test` script
no longer contains the placeholder, and which carries the `test-ct`
script when a framework was selected — unless the scripts value is an
array, whose `test-ct` expando was dropped. -/
def CoreFix (m' : Json) (a : PromptOptions) : Prop :=
  (∃ xs, m' = Json.arr xs) ∨
  (∃ kvs' sv', m' = Json.obj kvs' ∧ objGet kvs' "scripts" = some sv' ∧
    jsTruthyOpt (some sv') = true ∧
    includesNoTest (jsGet sv' "test") = Except.ok false ∧
    (a.framework.isSome = true →
      (∃ w, sv' = Json.obj w ∧
        objGet w "test-ct" = some (Json.str (testCTCommand a.language))) ∨
      (∃ ys, sv' = Json.arr ys)))

/-- The concrete placeholder manifest of the spec's manifest scenario:
`{"scripts":{"test":"echo \\"Error: no test specified\\" && exit 1"}}`. -/
def placeholderManifest : Json :=
  Json.obj [("scripts",
    Json.obj [("test", Json.str "echo \"Error: no test specified\" && exit 1")])]

/-! ### Dependency presence (`Generator._hasDependency`) -/

/-- `_hasDependency`: a missing or unparseable manifest (`none`) and any
absent or falsy declaration yield `false`; the `try/catch` in the source
recovers from the parse error. -/
def hasDependency (parsed : Option Json) (pkg : String) : Bool :=
  match parsed with
  | none => false
  | some j =>
    jsTruthyOpt ((jsGet j "dependencies").bind (fun d => jsGet d pkg)) ||
    jsTruthyOpt ((jsGet j "devDependencies").bind (fun d => jsGet d pkg)) ||
    jsTruthyOpt ((jsGet j "optionalDependencies").bind (fun d => jsGet d pkg))

/-! ### The command planner (`Generator._identifyChanges`) -/

/-- Command phases. -/
inductive CmdPhase where
  | pre
  | post
deriving DecidableEq, Repr

/-- A planned command. -/
structure Command where
  name : String
  command : String
  phase : CmdPhase
deriving DecidableEq, Repr

/-- The section directive for one named template section. -/
inductive SectionMode where
  | «show»
  | hide
  | comment
deriving DecidableEq, Repr

/-- The browser section directives built at the top of `_identifyChanges`:
every browser is `show` unless a browser subset was passed on the command
line and the browser is not in it, in which case it is `comment`. -/
def browserSections (browser : Option (List String)) : List (String × SectionMode) :=
  ["chromium", "firefox", "webkit"].map (fun b =>
    (b, if browser.isNone || (browser.getD []).contains b
        then SectionMode.«show» else SectionMode.comment))

/-- `packageTag`: `''`, overwritten by `'@beta'`, overwritten by `'@next'`. -/
def packageTag (opts : CliOptions) : String :=
  if opts.next.isSome then "@next" else if opts.beta.isSome then "@beta" else ""

/-- Framework name as spelled in the CT package. -/
def frameworkName : Framework → String
  | Framework.react => "react"
  | Framework.react17 => "react17"
  | Framework.vue => "vue"
  | Framework.vue2 => "vue2"
  | Framework.svelte => "svelte"
  | Framework.solid => "solid"

/-- `ctPackageName`, set only when a framework was answered. -/
def ctPackageName (answers : PromptOptions) : Option String :=
  answers.framework.map (fun f => "@playwright/experimental-ct-" ++ frameworkName f)

/-- `' ' + this.options.browser.join(' ')` when a browser subset was given. -/
def browsersSuffix (opts : CliOptions) : String :=
  match opts.browser with
  | some bs => " " ++ String.intercalate " " bs
  | none => ""

/-- The command list built by `_identifyChanges`, in source order.
`packageJsonExists` is `fs.existsSync(rootDir/package.json)`; `manifest` is
the parse result of that file as consumed by `_hasDependency`. -/
def identifyCommands (opts : CliOptions) (answers : PromptOptions)
    (pm : PackageManager) (packageJsonExists : Bool) (manifest : Option Json) :
    List Command :=
  (if packageJsonExists then []
   else [⟨"Initializing " ++ pm.name ++ " project", pm.init, CmdPhase.pre⟩]) ++
  (if opts.ct.isSome then []
   else
     [⟨"Installing Playwright Test",
       pm.installDevDependency ("@playwright/test" ++ packageTag opts), CmdPhase.pre⟩,
      ⟨"Installing dotenv", pm.installDevDependency "dotenv", CmdPhase.pre⟩,
      ⟨"Installing dxp/playwright-tools",
       pm.installDevDependency ("@dxp/playwright-tools" ++ packageTag opts), CmdPhase.pre⟩]) ++
  (if opts.ct.isSome then
     [⟨"Installing Playwright Component Testing",
       pm.installDevDependency ((ctPackageName answers).getD "undefined" ++ packageTag opts),
       CmdPhase.pre⟩]
   else []) ++
  (if hasDependency manifest "@types/node" then []
   else [⟨"Installing Types", pm.installDevDependency "@types/node", CmdPhase.pre⟩]) ++
  (if answers.installPlaywrightBrowsers then
     [⟨"Downloading browsers",
       pm.npx "playwright" "install" ++
         (if answers.installPlaywrightDependencies then " --with-deps" else "") ++
         browsersSuffix opts,
       CmdPhase.post⟩]
   else [])

/-- A concrete npm-shaped package-manager record used as a witness input
(the real record comes from the excluded `packageManager.ts` collaborator). -/
def pmNpm : PackageManager :=
  ⟨"npm", "npm", "npm init -y",
   fun p => "npm install --save-dev " ++ p,
   fun a b => "npx " ++ a ++ " " ++ b⟩

/-- Concrete answers for a plain end-to-end run. -/
def answersTS : PromptOptions :=
  ⟨"tests", true, Lang.typescript, none, false, true⟩

/-- Concrete answers for a component-testing (React, TypeScript) run. -/
def answersCT : PromptOptions :=
  ⟨"tests", true, Lang.typescript, some Framework.react, false, true⟩

/-- Whether a property read produced an object. -/
def isObjOpt : Option Json → Bool
  | some (Json.obj _) => true
  | _ => false

/-! ### The orchestrator (`Generator.run`) -/

/-- The observable events of one run, in execution order. -/
inductive RunEvent where
  | execCmd (c : Command)
  | writeFile (path : String)
  | patchIgnoreFile
  | patchManifest
deriving DecidableEq, Repr

/-- The `allCommands.reduce` partition in `run`: pushes each command onto
the pre or the post accumulator, preserving encounter order. -/
def partitionCommands (cmds : List Command) : List Command × List Command :=
  cmds.foldl
    (fun acc c =>
      if c.phase = CmdPhase.pre then (acc.1 ++ [c], acc.2) else (acc.1, acc.2 ++ [c]))
    ([], [])

/-- Modelled from the spec: `executeCommands` and `createFiles` live in
`src/utils.ts`, which is not part of the given sources; per the spec each
executes the given commands (resp. writes the given files) strictly in
order.  `runTrace` is the event sequence of `Generator.run`: pre-phase
commands, file writes, the `.gitignore` patch, the manifest patch, then
post-phase commands. -/
def runTrace (cmds : List Command) (files : List String) : List RunEvent :=
  (partitionCommands cmds).1.map RunEvent.execCmd ++
  files.map RunEvent.writeFile ++
  [RunEvent.patchIgnoreFile, RunEvent.patchManifest] ++
  (partitionCommands cmds).2.map RunEvent.execCmd

/-! ### Invariants used by the idempotence proof -/

/-- What every row of `valuesToAdd` satisfies: the literal matches its own
pattern, the empty line does not match, and the literal is a single line
ending in a non-whitespace character. -/
def goodEntry (e : IgnoreEntry) : Prop :=
  e.pat e.lit = true ∧ e.pat [] = false ∧ '\n' ∉ e.lit ∧
  ∃ c, e.lit.getLast? = some c ∧ c.isWhitespace = false

/-- Invariant of the forEach state: the content is empty or ends in a
newline, and once the heading flag has been cleared the content ends in a
newline. -/
def stInv (st : List Char × Bool) : Prop :=
  (st.1 = [] ∨ ∃ g', st.1 = g' ++ ['\n']) ∧
  (st.2 = false → ∃ g', st.1 = g' ++ ['\n'])

/-- The content is a fixed point of the `trimEnd() + '\n'` normalisation. -/
def trimFix (g : List Char) : Prop := jsTrimEnd g ++ ['\n'] = g

/-! ### Line-splitting lemmas -/

theorem splitNL_def (cs : List Char) :
    splitNL cs = (splitNLh cs).1 :: (splitNLh cs).2 := rfl

theorem splitNL_ne_nil (cs : List Char) : splitNL cs ≠ [] := by
  simp [splitNL]

theorem splitNL_cons_newline (cs : List Char) :
    splitNL ('\n' :: cs) = [] :: splitNL cs := by
  simp [splitNL, splitNLh]

theorem splitNL_cons_other {c : Char} (hc : ¬ c = '\n') (cs : List Char) :
    splitNL (c :: cs) = (c :: (splitNLh cs).1) :: (splitNLh cs).2 := by
  simp [splitNL, splitNLh, hc]

theorem splitNLh_snd_ne_nil : ∀ {x : List Char}, '\n' ∈ x → (splitNLh x).2 ≠ []
  | [], h => by simp at h
  | c :: cs, h => by
    by_cases hc : c = '\n'
    · simp [splitNLh, hc]
    · have h' : '\n' ∈ cs := by
        rcases List.mem_cons.mp h with h1 | h2
        · exact absurd h1.symm hc
        · exact h2
      simpa [splitNLh, hc] using splitNLh_snd_ne_nil h'

theorem splitNL_append_nl (a b : List Char) :
    splitNL (a ++ '\n' :: b) = (splitNL (a ++ ['\n'])).dropLast ++ splitNL b := by
  induction a with
  | nil =>
    rw [List.nil_append, List.nil_append, splitNL_cons_newline]
    simp [splitNL, splitNLh]
  | cons c cs ih =>
    by_cases hc : c = '\n'
    · subst hc
      rw [List.cons_append, splitNL_cons_newline, ih, List.cons_append,
        splitNL_cons_newline]
      obtain ⟨y, zs, hyz⟩ :=
        List.exists_cons_of_ne_nil (splitNL_ne_nil (cs ++ ['\n']))
      rw [hyz, List.dropLast_cons₂, List.cons_append]
    · have hne : '\n' ∈ cs ++ ['\n'] := by simp
      obtain ⟨y, zs, hyz⟩ :=
        List.exists_cons_of_ne_nil (splitNLh_snd_ne_nil hne)
      rw [List.cons_append, splitNL_cons_other hc, List.cons_append,
        splitNL_cons_other hc]
      rw [splitNL_def (cs ++ '\n' :: b), splitNL_def (cs ++ ['\n'])] at ih
      rw [hyz] at ih ⊢
      rw [List.dropLast_cons₂, List.cons_append] at ih
      injection ih with e1 e2
      rw [List.dropLast_cons₂, List.cons_append, e1, e2]

theorem splitNL_endsNL_append {g : List Char} (s : List Char)
    (hg : ∃ g', g = g' ++ ['\n']) :
    splitNL (g ++ s) = (splitNL g).dropLast ++ splitNL s := by
  obtain ⟨g', rfl⟩ := hg
  have h : g' ++ ['\n'] ++ s = g' ++ '\n' :: s := by simp
  rw [h, splitNL_append_nl]

theorem splitNL_endsNL_getLast {g : List Char} (hg : ∃ g', g = g' ++ ['\n']) :
    splitNL g = (splitNL g).dropLast ++ [[]] := by
  have h := splitNL_endsNL_append [] hg
  simpa [splitNL, splitNLh] using h

theorem matchesPat_nil (p : List Char → Bool) : matchesPat [] p = p [] := by
  simp [matchesPat, splitNL, splitNLh]

theorem matchesPat_append_of_matches {g : List Char} (s : List Char)
    {p : List Char → Bool} (hnil : p [] = false)
    (hg : ∃ g', g = g' ++ ['\n']) (h : matchesPat g p = true) :
    matchesPat (g ++ s) p = true := by
  unfold matchesPat at h ⊢
  rw [List.any_eq_true] at h
  obtain ⟨l, hl, hp⟩ := h
  rw [splitNL_endsNL_getLast hg] at hl
  rcases List.mem_append.mp hl with h1 | h2
  · rw [splitNL_endsNL_append s hg, List.any_eq_true]
    exact ⟨l, List.mem_append.mpr (Or.inl h1), hp⟩
  · have hle : l = [] := by simpa using h2
    rw [hle, hnil] at hp
    cases hp

theorem splitNL_noNL_append_nl : ∀ {lit : List Char}, '\n' ∉ lit →
    splitNL (lit ++ ['\n']) = [lit, []]
  | [], _ => by simp [splitNL, splitNLh]
  | c :: cs, h => by
    have hc : ¬ c = '\n' := by
      intro hh
      exact h (by rw [hh]; exact List.mem_cons_self '\n' cs)
    have h' : '\n' ∉ cs := fun hh => h (List.mem_cons_of_mem _ hh)
    rw [List.cons_append, splitNL_cons_other hc]
    have hrec := splitNL_noNL_append_nl h'
    rw [splitNL_def] at hrec
    injection hrec with e1 e2
    rw [e1, e2]

theorem matchesPat_append_lit {w lit : List Char} {p : List Char → Bool}
    (hp : p lit = true) (hnl : '\n' ∉ lit) (hw : ∃ w', w = w' ++ ['\n']) :
    matchesPat (w ++ (lit ++ ['\n'])) p = true := by
  unfold matchesPat
  rw [splitNL_endsNL_append _ hw, List.any_eq_true]
  refine ⟨lit, ?_, hp⟩
  rw [splitNL_noNL_append_nl hnl]
  exact List.mem_append.mpr (Or.inr (by simp))

/-! ### trimEnd lemmas -/

theorem jsTrimEnd_append_nl {l : List Char} {c : Char}
    (hl : l.getLast? = some c) (hc : c.isWhitespace = false) :
    jsTrimEnd (l ++ ['\n']) = l := by
  unfold jsTrimEnd
  rw [List.reverse_append]
  have h1 : ([ '\n' ] : List Char).reverse = ['\n'] := rfl
  rw [h1, List.singleton_append, List.dropWhile_cons]
  have h2 : ('\n').isWhitespace = true := by decide
  rw [h2]
  simp only [if_true]
  cases hrev : l.reverse with
  | nil =>
    rw [← List.head?_reverse, hrev] at hl
    cases hl
  | cons d t =>
    have hd : d = c := by
      rw [← List.head?_reverse, hrev] at hl
      simpa using hl
    subst hd
    rw [List.dropWhile_cons, hc]
    simp only [if_false, Bool.false_eq_true]
    rw [← hrev, List.reverse_reverse]

theorem dropWhile_dropWhile {α : Type} (p : α → Bool) (l : List α) :
    List.dropWhile p (List.dropWhile p l) = List.dropWhile p l := by
  induction l with
  | nil => rfl
  | cons c cs ih =>
    by_cases h : p c = true
    · simp [List.dropWhile_cons, h, ih]
    · simp [List.dropWhile_cons, h]

theorem jsTrimEnd_norm (c : List Char) :
    jsTrimEnd (jsTrimEnd c ++ ['\n']) = jsTrimEnd c := by
  unfold jsTrimEnd
  rw [List.reverse_append]
  have h1 : ([ '\n' ] : List Char).reverse = ['\n'] := rfl
  rw [h1, List.singleton_append, List.dropWhile_cons]
  have h2 : ('\n').isWhitespace = true := by decide
  rw [h2]
  simp only [if_true, List.reverse_reverse]
  rw [dropWhile_dropWhile]

/-! ### Fold invariants of the `.gitignore` patch -/

theorem patch_fold_main :
    ∀ (es : List IgnoreEntry) (g : List Char) (f : Bool),
      (∀ e ∈ es, goodEntry e) → stInv (g, f) →
      stInv (es.foldl patchStep (g, f)) ∧
      (∀ e ∈ es, matchesPat (es.foldl patchStep (g, f)).1 e.pat = true) ∧
      (∀ p : List Char → Bool, p [] = false → matchesPat g p = true →
        matchesPat (es.foldl patchStep (g, f)).1 p = true)
  | [], g, f, _, hst => ⟨hst, by simp, fun p _ h => h⟩
  | e :: es, g, f, hgood, hst => by
    obtain ⟨hpl, hpn, hnl, c0, hc0, hws⟩ := hgood e (List.mem_cons_self e es)
    have hgood' : ∀ e' ∈ es, goodEntry e' :=
      fun e' he' => hgood e' (List.mem_cons_of_mem _ he')
    rw [List.foldl_cons]
    by_cases hm : matchesPat g e.pat = true
    · have hstep : patchStep (g, f) e = (g, f) := by simp [patchStep, hm]
      rw [hstep]
      obtain ⟨h1, h2, h3⟩ := patch_fold_main es g f hgood' hst
      refine ⟨h1, ?_, h3⟩
      intro e' he'
      rcases List.mem_cons.mp he' with rfl | he''
      · exact h3 e'.pat hpn hm
      · exact h2 e' he''
    · have hstep : patchStep (g, f) e =
          (g ++ (if f then headingChunk else []) ++ e.lit ++ ['\n'], false) := by
        simp [patchStep, hm]
      rw [hstep]
      have hw : ∃ w', g ++ (if f then headingChunk else []) = w' ++ ['\n'] := by
        cases f with
        | true =>
          refine ⟨g ++ "\n# Playwright".data, ?_⟩
          have hh : headingChunk = "\n# Playwright".data ++ ['\n'] := by decide
          simp only [if_true, hh, List.append_assoc]
        | false =>
          obtain ⟨w', hw'⟩ := hst.2 rfl
          exact ⟨w', by simpa using hw'⟩
      have hmg' : matchesPat
          (g ++ (if f then headingChunk else []) ++ e.lit ++ ['\n']) e.pat = true := by
        have h := matchesPat_append_lit hpl hnl hw
        have hassoc : g ++ (if f then headingChunk else []) ++ e.lit ++ ['\n'] =
            (g ++ (if f then headingChunk else [])) ++ (e.lit ++ ['\n']) := by
          simp [List.append_assoc]
        rw [hassoc]
        exact h
      have hst' : stInv (g ++ (if f then headingChunk else []) ++ e.lit ++ ['\n'], false) :=
        ⟨Or.inr ⟨g ++ (if f then headingChunk else []) ++ e.lit, rfl⟩,
         fun _ => ⟨g ++ (if f then headingChunk else []) ++ e.lit, rfl⟩⟩
      obtain ⟨h1, h2, h3⟩ := patch_fold_main es _ false hgood' hst'
      refine ⟨h1, ?_, ?_⟩
      · intro e' he'
        rcases List.mem_cons.mp he' with rfl | he''
        · exact h3 e'.pat hpn hmg'
        · exact h2 e' he''
      · intro p hpn' hgp
        apply h3 p hpn'
        have hst1 : g = [] ∨ ∃ g', g = g' ++ ['\n'] := hst.1
        rcases hst1 with hnil | hend
        · rw [hnil, matchesPat_nil, hpn'] at hgp
          cases hgp
        · have h := matchesPat_append_of_matches
            ((if f then headingChunk else []) ++ e.lit ++ ['\n']) hpn' hend hgp
          have hassoc : g ++ (if f then headingChunk else []) ++ e.lit ++ ['\n'] =
              g ++ ((if f then headingChunk else []) ++ e.lit ++ ['\n']) := by
            simp [List.append_assoc]
          rw [hassoc]
          exact h

theorem patch_fold_trimFix :
    ∀ (es : List IgnoreEntry) (g : List Char) (f : Bool),
      (∀ e ∈ es, goodEntry e) → (trimFix g ∨ g = []) →
      trimFix (es.foldl patchStep (g, f)).1 ∨ (es.foldl patchStep (g, f)).1 = []
  | [], g, _, _, h => by simpa using h
  | e :: es, g, f, hgood, h => by
    have hgood' : ∀ e' ∈ es, goodEntry e' :=
      fun e' he' => hgood e' (List.mem_cons_of_mem _ he')
    rw [List.foldl_cons]
    by_cases hm : matchesPat g e.pat = true
    · have hstep : patchStep (g, f) e = (g, f) := by simp [patchStep, hm]
      rw [hstep]
      exact patch_fold_trimFix es g f hgood' h
    · have hstep : patchStep (g, f) e =
          (g ++ (if f then headingChunk else []) ++ e.lit ++ ['\n'], false) := by
        simp [patchStep, hm]
      rw [hstep]
      apply patch_fold_trimFix es _ false hgood'
      left
      obtain ⟨hpl, hpn, hnl, c0, hc0, hws⟩ := hgood e (List.mem_cons_self e es)
      have hlitne : e.lit ≠ [] := by
        intro hh
        rw [hh] at hc0
        cases hc0
      have htrim : jsTrimEnd ((g ++ (if f then headingChunk else []) ++ e.lit) ++ ['\n']) =
          g ++ (if f then headingChunk else []) ++ e.lit :=
        jsTrimEnd_append_nl
          (by rw [List.getLast?_append_of_ne_nil _ hlitne]; exact hc0) hws
      show jsTrimEnd (g ++ (if f then headingChunk else []) ++ e.lit ++ ['\n']) ++ ['\n'] =
          g ++ (if f then headingChunk else []) ++ e.lit ++ ['\n']
      rw [htrim]

theorem patch_fold_noop :
    ∀ (es : List IgnoreEntry) (g : List Char) (f : Bool),
      (∀ e ∈ es, matchesPat g e.pat = true) →
      es.foldl patchStep (g, f) = (g, f)
  | [], _, _, _ => rfl
  | e :: es, g, f, h => by
    rw [List.foldl_cons]
    have hstep : patchStep (g, f) e = (g, f) := by
      simp [patchStep, h e (List.mem_cons_self e es)]
    rw [hstep]
    exact patch_fold_noop es g f (fun e' he' => h e' (List.mem_cons_of_mem _ he'))

/-! ### Idempotence of the `.gitignore` patch -/

theorem goodEntries_gitIgnore : ∀ e ∈ gitIgnoreEntries, goodEntry e := by
  intro e he
  fin_cases he <;>
    exact ⟨by decide, by decide, by decide, '/', by decide, by decide⟩

theorem patchGitIgnoreL_idem (c : Option (List Char)) :
    patchGitIgnoreL (some (patchGitIgnoreL c)) = patchGitIgnoreL c := by
  have hgood := goodEntries_gitIgnore
  have hst : stInv (normalizeGitIgnore c, true) := by
    constructor
    · cases c with
      | none => exact Or.inl rfl
      | some cs => exact Or.inr ⟨jsTrimEnd cs, rfl⟩
    · intro hf
      cases hf
  obtain ⟨hstR, hmatchAll, hpres⟩ :=
    patch_fold_main gitIgnoreEntries (normalizeGitIgnore c) true hgood hst
  have hK0 : trimFix (normalizeGitIgnore c) ∨ normalizeGitIgnore c = [] := by
    cases c with
    | none => exact Or.inr rfl
    | some cs =>
      left
      show jsTrimEnd (jsTrimEnd cs ++ ['\n']) ++ ['\n'] = jsTrimEnd cs ++ ['\n']
      rw [jsTrimEnd_norm]
  have hK := patch_fold_trimFix gitIgnoreEntries (normalizeGitIgnore c) true hgood hK0
  have hrne : (gitIgnoreEntries.foldl patchStep (normalizeGitIgnore c, true)).1 ≠ [] := by
    intro hh
    have h1 := hmatchAll ⟨"node_modules/".data, nodeModulesPat⟩
      (by unfold gitIgnoreEntries; exact List.mem_cons_self _ _)
    rw [hh, matchesPat_nil] at h1
    exact absurd h1 (by decide)
  have hKr : trimFix (gitIgnoreEntries.foldl patchStep (normalizeGitIgnore c, true)).1 :=
    hK.resolve_right hrne
  show (gitIgnoreEntries.foldl patchStep
      (normalizeGitIgnore (some (patchGitIgnoreL c)), true)).1 = patchGitIgnoreL c
  have hnorm : normalizeGitIgnore (some (patchGitIgnoreL c)) = patchGitIgnoreL c := hKr
  rw [hnorm]
  have hnoop := patch_fold_noop gitIgnoreEntries (patchGitIgnoreL c) true hmatchAll
  rw [hnoop]

theorem data_mk (l : List Char) : (String.mk l).data = l := rfl

theorem patchGitIgnore_eq (c : Option String) :
    patchGitIgnore c = String.mk (patchGitIgnoreL (c.map String.data)) := rfl

/-- C2: the ignore-file patch is idempotent — for every existing `.gitignore`
content (including an absent file), applying `_patchGitIgnore`'s
read-patch-write transformation to its own output changes nothing: the
second application appends no entries and no heading comment. -/
theorem gitignore_patch_idempotent (c : Option String) :
    patchGitIgnore (some (patchGitIgnore c)) = patchGitIgnore c := by
  simp only [patchGitIgnore_eq, Option.map_some', data_mk]
  exact congrArg String.mk (patchGitIgnoreL_idem (c.map String.data))

/-! ### The concrete `node_modules` scenario (C5) -/

/-- C5 counterexample: for the existing `.gitignore` content
`"node_modules\n"`, the patch does not leave the file unchanged — the
heading comment and the four other required entries are appended, because
only the `node_modules` pattern is already satisfied. -/
theorem gitignore_nodeModules_changed :
    patchGitIgnore (some "node_modules\n") ≠ "node_modules\n" := by decide

/-- C5 amended: when the tolerant `node_modules` pattern already matches the
normalised existing content, the patch skips the `node_modules/` entry
entirely — the result is the fold over only the four remaining entries, so
`node_modules/` is never appended and the heading is added only if one of
those four is missing. -/
theorem gitignore_nodeModules_entry_skipped (c : String)
    (h : matchesPat (normalizeGitIgnore (some c.data)) nodeModulesPat = true) :
    patchGitIgnore (some c) =
      String.mk (([⟨"/test-results/".data, testResultsPat⟩,
        ⟨"/playwright-report/".data, playwrightReportPat⟩,
        ⟨"/blob-report/".data, blobReportPat⟩,
        ⟨"/playwright/.cache/".data, playwrightCachePat⟩] : List IgnoreEntry).foldl
          patchStep (normalizeGitIgnore (some c.data), true)).1 := by
  have hstep : patchStep (normalizeGitIgnore (some c.data), true)
      ⟨"node_modules/".data, nodeModulesPat⟩ = (normalizeGitIgnore (some c.data), true) := by
    simp [patchStep, h]
  simp only [patchGitIgnore_eq, Option.map_some', data_mk]
  refine congrArg String.mk ?_
  unfold patchGitIgnoreL gitIgnoreEntries
  rw [List.foldl_cons, hstep]

/-- C5 witness: with `node_modules` (slash-less) present and the other four
entries already in place, the patch leaves the content unchanged. -/
theorem gitignore_nodeModules_entry_skipped_witness :
    patchGitIgnore
      (some "node_modules\n/test-results/\n/playwright-report/\n/blob-report/\n/playwright/.cache/\n") =
      "node_modules\n/test-results/\n/playwright-report/\n/blob-report/\n/playwright/.cache/\n" :=
  (gitignore_nodeModules_entry_skipped
    "node_modules\n/test-results/\n/playwright-report/\n/blob-report/\n/playwright/.cache/\n"
    (by decide)).trans (by decide)

/-! ### Phase ordering of the run (C1) -/

theorem partition_fold_acc :
    ∀ (cmds : List Command) (acc : List Command × List Command),
      cmds.foldl
        (fun acc c =>
          if c.phase = CmdPhase.pre then (acc.1 ++ [c], acc.2) else (acc.1, acc.2 ++ [c]))
        acc =
      (acc.1 ++ cmds.filter (fun c => decide (c.phase = CmdPhase.pre)),
       acc.2 ++ cmds.filter (fun c => decide (c.phase = CmdPhase.post)))
  | [], acc => by simp
  | c :: cs, acc => by
    rw [List.foldl_cons]
    by_cases h : c.phase = CmdPhase.pre
    · rw [if_pos h, partition_fold_acc cs _]
      have hnp : ¬ c.phase = CmdPhase.post := by rw [h]; intro hh; cases hh
      simp [List.filter_cons, h, hnp, List.append_assoc]
    · rw [if_neg h, partition_fold_acc cs _]
      have hp : c.phase = CmdPhase.post := by
        cases hc : c.phase
        · exact absurd hc h
        · rfl
      simp [List.filter_cons, h, hp, List.append_assoc]

theorem partitionCommands_eq (cmds : List Command) :
    partitionCommands cmds =
      (cmds.filter (fun c => decide (c.phase = CmdPhase.pre)),
       cmds.filter (fun c => decide (c.phase = CmdPhase.post))) := by
  unfold partitionCommands
  rw [partition_fold_acc]
  simp

/-- C1: the run executes all pre-phase commands, in append order, strictly
before any file write, and all post-phase commands, in append order,
strictly after the file writes and the `.gitignore` and manifest patches;
in particular the plan `[A(pre), B(post), C(pre)]` runs as
`A, C, (writes and patches), B`. -/
theorem run_phase_ordering :
    (∀ (cmds : List Command) (files : List String),
      runTrace cmds files =
        (cmds.filter (fun c => decide (c.phase = CmdPhase.pre))).map RunEvent.execCmd ++
        files.map RunEvent.writeFile ++
        [RunEvent.patchIgnoreFile, RunEvent.patchManifest] ++
        (cmds.filter (fun c => decide (c.phase = CmdPhase.post))).map RunEvent.execCmd) ∧
    runTrace
        [⟨"A", "a", CmdPhase.pre⟩, ⟨"B", "b", CmdPhase.post⟩, ⟨"C", "c", CmdPhase.pre⟩]
        ["f"] =
      [RunEvent.execCmd ⟨"A", "a", CmdPhase.pre⟩,
       RunEvent.execCmd ⟨"C", "c", CmdPhase.pre⟩,
       RunEvent.writeFile "f",
       RunEvent.patchIgnoreFile, RunEvent.patchManifest,
       RunEvent.execCmd ⟨"B", "b", CmdPhase.post⟩] := by
  constructor
  · intro cmds files
    unfold runTrace
    rw [partitionCommands_eq]
  · rfl

/-! ### Browser section directives (C9) -/

/-- C9: the directive built for each browser section is `show` (no subset
given, or the browser is in the subset) or `comment`; the `hide` state is
never produced. -/
theorem browser_sections_never_hide (browser : Option (List String)) (b : String)
    (m : SectionMode) (h : (b, m) ∈ browserSections browser) :
    m = SectionMode.«show» ∨ m = SectionMode.comment := by
  unfold browserSections at h
  rw [List.mem_map] at h
  obtain ⟨x, hx, heq⟩ := h
  have hm : m = (if browser.isNone || (browser.getD []).contains x
      then SectionMode.«show» else SectionMode.comment) := (congrArg Prod.snd heq).symm
  by_cases hc : (browser.isNone || (browser.getD []).contains x) = true
  · left
    rw [hm, if_pos hc]
  · right
    rw [hm, if_neg hc]

/-- C9 witness: with no browser subset, the chromium section is `show`,
satisfying the disjunction. -/
theorem browser_sections_never_hide_witness :
    SectionMode.«show» = SectionMode.«show» ∨ SectionMode.«show» = SectionMode.comment :=
  browser_sections_never_hide none "chromium" SectionMode.«show» (by decide)

/-! ### Planner: browser download command (C8) -/

/-- C8: the planner appends exactly one post-phase command — the browser
download — iff the answers request browser installation; it carries
` --with-deps` iff OS dependencies were requested and the caller's browser
subset as trailing arguments when one was given.  No other planned command
is post-phase. -/
theorem planner_browsers_post_command (opts : CliOptions) (answers : PromptOptions)
    (pm : PackageManager) (pj : Bool) (manifest : Option Json) :
    (identifyCommands opts answers pm pj manifest).filter
        (fun c => decide (c.phase = CmdPhase.post)) =
      (if answers.installPlaywrightBrowsers then
        [⟨"Downloading browsers",
          pm.npx "playwright" "install" ++
            (if answers.installPlaywrightDependencies then " --with-deps" else "") ++
            browsersSuffix opts,
          CmdPhase.post⟩]
       else []) := by
  unfold identifyCommands
  simp only [List.filter_append]
  split_ifs <;> simp [List.filter_cons]

/-! ### Planner: non-component-testing installs (C6) -/

/-- C6 counterexample: with the `--beta` tag selected (so the tag is
`@beta`, as the tagged `@playwright/test@beta` install shows), no planned
command installs `dotenv@beta`: the dotenv install is appended untagged,
contradicting "each of the three pinned to the same optional tag". -/
theorem planner_dotenv_not_tagged :
    ((⟨"Installing Playwright Test", "npm install --save-dev @playwright/test@beta",
        CmdPhase.pre⟩ : Command) ∈
      identifyCommands { beta := some [] } answersTS pmNpm true (some (Json.obj []))) ∧
    ((⟨"Installing dotenv", "npm install --save-dev dotenv", CmdPhase.pre⟩ : Command) ∈
      identifyCommands { beta := some [] } answersTS pmNpm true (some (Json.obj []))) ∧
    (∀ c ∈ identifyCommands { beta := some [] } answersTS pmNpm true (some (Json.obj [])),
      c.command ≠ "npm install --save-dev dotenv@beta") := by
  refine ⟨by decide, by decide, ?_⟩
  decide

/-- C6 amended: for every run that is not a component-testing run, the
planner appends, in order, pre-phase install commands for the test runner
(`@playwright/test`) and the internal test-tooling add-on
(`@dxp/playwright-tools`), each pinned to the selected optional tag, and a
pre-phase install command for `dotenv`, which is always untagged. -/
theorem planner_non_ct_installs (opts : CliOptions) (answers : PromptOptions)
    (pm : PackageManager) (pj : Bool) (manifest : Option Json)
    (h : opts.ct = none) :
    List.Sublist
      [⟨"Installing Playwright Test",
        pm.installDevDependency ("@playwright/test" ++ packageTag opts), CmdPhase.pre⟩,
       ⟨"Installing dotenv", pm.installDevDependency "dotenv", CmdPhase.pre⟩,
       ⟨"Installing dxp/playwright-tools",
        pm.installDevDependency ("@dxp/playwright-tools" ++ packageTag opts), CmdPhase.pre⟩]
      (identifyCommands opts answers pm pj manifest) := by
  unfold identifyCommands
  rw [h]
  simp only [Option.isSome_none, Bool.false_eq_true, if_false]
  exact (List.sublist_append_right _ _).trans
    ((List.sublist_append_left _ _).trans
      ((List.sublist_append_left _ _).trans (List.sublist_append_left _ _)))

/-- C6 witness: the amended sublist at a concrete non-component-testing
run with the `@beta` tag. -/
theorem planner_non_ct_installs_witness :
    List.Sublist
      [⟨"Installing Playwright Test",
        pmNpm.installDevDependency ("@playwright/test" ++ packageTag { beta := some [] }),
        CmdPhase.pre⟩,
       ⟨"Installing dotenv", pmNpm.installDevDependency "dotenv", CmdPhase.pre⟩,
       ⟨"Installing dxp/playwright-tools",
        pmNpm.installDevDependency ("@dxp/playwright-tools" ++ packageTag { beta := some [] }),
        CmdPhase.pre⟩]
      (identifyCommands { beta := some [] } answersTS pmNpm true (some (Json.obj []))) :=
  planner_non_ct_installs { beta := some [] } answersTS pmNpm true (some (Json.obj [])) rfl

/-! ### Ordered-object lemmas -/

theorem objGet_objSet_self (kvs : List (String × Json)) (k : String) (v : Json) :
    objGet (objSet kvs k v) k = some v := by
  induction kvs with
  | nil => simp [objSet, objGet]
  | cons kv rest ih =>
    by_cases h : kv.1 = k
    · simp [objSet, objGet, h]
    · simp [objSet, objGet, h, ih]

theorem objSet_objGet_same {kvs : List (String × Json)} {k : String} {v : Json}
    (h : objGet kvs k = some v) : objSet kvs k v = kvs := by
  induction kvs with
  | nil => simp [objGet] at h
  | cons kv rest ih =>
    obtain ⟨k1, v1⟩ := kv
    by_cases hk : k1 = k
    · rw [objGet, if_pos hk] at h
      injection h with hv
      rw [objSet, if_pos hk, hv]
    · rw [objGet, if_neg hk] at h
      rw [objSet, if_neg hk, ih h]

theorem objGet_objModify_self (kvs : List (String × Json)) (k : String) (f : Json → Json) :
    objGet (objModify kvs k f) k = (objGet kvs k).map f := by
  induction kvs with
  | nil => simp [objModify, objGet]
  | cons kv rest ih =>
    by_cases h : kv.1 = k
    · simp [objModify, objGet, h]
    · simp [objModify, objGet, h, ih]

theorem objModify_const_self {kvs : List (String × Json)} {k : String} {v : Json}
    (h : objGet kvs k = some v) : objModify kvs k (fun _ => v) = kvs := by
  induction kvs with
  | nil => simp [objModify]
  | cons kv rest ih =>
    obtain ⟨k1, v1⟩ := kv
    by_cases hk : k1 = k
    · rw [objGet, if_pos hk] at h
      injection h with hv
      rw [objModify, if_pos hk, hv]
    · rw [objGet, if_neg hk] at h
      rw [objModify, if_neg hk, ih h]

theorem objGet_objDel_self (kvs : List (String × Json)) (k : String) :
    objGet (objDel kvs k) k = none := by
  induction kvs with
  | nil => simp [objDel, objGet]
  | cons kv rest ih =>
    by_cases h : kv.1 = k
    · simpa [objDel, List.filter_cons, h] using ih
    · simpa [objDel, objGet, List.filter_cons, h] using ih

theorem objGet_objSet_ne (kvs : List (String × Json)) {k k' : String}
    (h : ¬ k = k') (v : Json) : objGet (objSet kvs k v) k' = objGet kvs k' := by
  induction kvs with
  | nil => simp [objSet, objGet, h]
  | cons kv rest ih =>
    obtain ⟨k1, v1⟩ := kv
    by_cases hk : k1 = k
    · have hk' : ¬ k1 = k' := by rw [hk]; exact h
      simp only [objSet, objGet, if_pos hk, if_neg hk']
    · simp only [objSet, objGet, if_neg hk]
      by_cases hk' : k1 = k'
      · simp only [if_pos hk']
      · simp only [if_neg hk', ih]

/-! ### The manifest patch: fixpoint analysis -/

theorem jsGet_obj (kvs : List (String × Json)) (k : String) :
    jsGet (Json.obj kvs) k = objGet kvs k := rfl

theorem core_arr (xs : List Json) (a : PromptOptions) :
    patchPackageJSONCore (Json.arr xs) a = Except.ok (Json.arr xs) := by
  unfold patchPackageJSONCore
  cases hf : a.framework.isSome <;>
    simp [jsGet, jsTruthyOpt, setTopScripts, includesNoTest, applyDelTest,
      applySetTestCT, Option.none_bind, hf]

theorem core_arr_out {xs : List Json} {a : PromptOptions} {m' : Json}
    (h : patchPackageJSONCore (Json.arr xs) a = Except.ok m') : m' = Json.arr xs := by
  rw [core_arr] at h
  injection h with hm
  exact hm.symm

theorem patchPackageJSONCore_of_fix {m' : Json} {a : PromptOptions}
    (hfix : CoreFix m' a) : patchPackageJSONCore m' a = Except.ok m' := by
  rcases hfix with ⟨xs, rfl⟩ | ⟨kvs', sv', rfl, hget, htr, hinc, hfw⟩
  · exact core_arr xs a
  · have hjs : jsGet (Json.obj kvs') "scripts" = some sv' := hget
    unfold patchPackageJSONCore
    rw [hjs, htr]
    simp only [if_true]
    rw [hjs]
    simp only [Option.some_bind]
    rw [hinc]
    cases hf : a.framework.isSome with
    | false =>
      simp only [hf, Bool.false_eq_true, if_false, applyDelTest, ite_false]
    | true =>
      rcases hfw hf with ⟨w, rfl, hw⟩ | ⟨ys, rfl⟩
      · simp only [hf, if_true, applyDelTest, Bool.false_eq_true, if_false]
        simp only [applySetTestCT]
        rw [hget]
        simp only [scriptsSetTestCT]
        simp only [objSet_objGet_same hw, objModify_const_self hget]
      · simp only [hf, if_true, applyDelTest, Bool.false_eq_true, if_false]
        simp only [applySetTestCT]
        rw [hget]
        simp only [scriptsSetTestCT]
        simp only [objModify_const_self hget]

theorem step1_ok {m m1 : Json}
    (h : (if jsTruthyOpt (jsGet m "scripts") then Except.ok m else setTopScripts m) =
      Except.ok m1) :
    (∃ xs, m = Json.arr xs ∧ m1 = Json.arr xs) ∨
    (∃ kvs1 sv1, m1 = Json.obj kvs1 ∧ objGet kvs1 "scripts" = some sv1 ∧
      jsTruthyOpt (some sv1) = true) := by
  by_cases hc : jsTruthyOpt (jsGet m "scripts") = true
  · rw [if_pos hc] at h
    injection h with hm
    cases m with
    | obj kvs =>
      cases hs : objGet kvs "scripts" with
      | none =>
        rw [jsGet_obj, hs] at hc
        cases hc
      | some sv =>
        right
        refine ⟨kvs, sv, hm.symm, hs, ?_⟩
        rwa [jsGet_obj, hs] at hc
    | null => simp [jsGet, jsTruthyOpt] at hc
    | bool b => simp [jsGet, jsTruthyOpt] at hc
    | num n => simp [jsGet, jsTruthyOpt] at hc
    | str s => simp [jsGet, jsTruthyOpt] at hc
    | arr xs => simp [jsGet, jsTruthyOpt] at hc
  · rw [if_neg hc] at h
    cases m with
    | obj kvs =>
      simp only [setTopScripts] at h
      injection h with hm
      right
      exact ⟨objSet kvs "scripts" (Json.obj []), Json.obj [], hm.symm,
        objGet_objSet_self kvs "scripts" (Json.obj []), rfl⟩
    | arr xs =>
      simp only [setTopScripts] at h
      injection h with hm
      exact Or.inl ⟨xs, rfl, hm.symm⟩
    | null => simp [setTopScripts] at h
    | bool b => simp [setTopScripts] at h
    | num n => simp [setTopScripts] at h
    | str s => simp [setTopScripts] at h

theorem delTest_facts {kvs1 : List (String × Json)} {sv1 : Json} {b : Bool}
    (hg1 : objGet kvs1 "scripts" = some sv1)
    (ht1 : jsTruthyOpt (some sv1) = true)
    (heq2 : includesNoTest (jsGet sv1 "test") = Except.ok b) :
    ∃ kvs2 sv2, applyDelTest b (Json.obj kvs1) = Json.obj kvs2 ∧
      objGet kvs2 "scripts" = some sv2 ∧ jsTruthyOpt (some sv2) = true ∧
      includesNoTest (jsGet sv2 "test") = Except.ok false := by
  cases b with
  | false => exact ⟨kvs1, sv1, rfl, hg1, ht1, heq2⟩
  | true =>
    cases sv1 with
    | obj svk =>
      refine ⟨objModify kvs1 "scripts" scriptsDelTest, Json.obj (objDel svk "test"),
        by simp [applyDelTest], ?_, rfl, ?_⟩
      · rw [objGet_objModify_self, hg1]
        rfl
      · rw [jsGet_obj, objGet_objDel_self]
        rfl
    | null => simp [jsGet, includesNoTest] at heq2
    | bool b' => simp [jsGet, includesNoTest] at heq2
    | num n => simp [jsGet, includesNoTest] at heq2
    | str s => simp [jsGet, includesNoTest] at heq2
    | arr xs => simp [jsGet, includesNoTest] at heq2

theorem setct_facts {kvs2 : List (String × Json)} {sv2 : Json} {m' : Json} {cmd : String}
    (hg2 : objGet kvs2 "scripts" = some sv2)
    (hi2 : includesNoTest (jsGet sv2 "test") = Except.ok false)
    (h : applySetTestCT (Json.obj kvs2) cmd = Except.ok m') :
    ∃ kvs' sv', m' = Json.obj kvs' ∧ objGet kvs' "scripts" = some sv' ∧
      jsTruthyOpt (some sv') = true ∧
      includesNoTest (jsGet sv' "test") = Except.ok false ∧
      ((∃ w, sv' = Json.obj w ∧ objGet w "test-ct" = some (Json.str cmd)) ∨
       (∃ ys, sv' = Json.arr ys)) := by
  simp only [applySetTestCT] at h
  rw [hg2] at h
  cases sv2 with
  | obj w2 =>
    simp only [scriptsSetTestCT] at h
    injection h with hm'
    refine ⟨objModify kvs2 "scripts" (fun _ => Json.obj (objSet w2 "test-ct" (Json.str cmd))),
      Json.obj (objSet w2 "test-ct" (Json.str cmd)), hm'.symm, ?_, rfl, ?_,
      Or.inl ⟨objSet w2 "test-ct" (Json.str cmd), rfl,
        objGet_objSet_self w2 "test-ct" (Json.str cmd)⟩⟩
    · rw [objGet_objModify_self, hg2]
      rfl
    · rw [jsGet_obj, objGet_objSet_ne w2 (by decide) (Json.str cmd)]
      exact hi2
  | arr ys =>
    simp only [scriptsSetTestCT] at h
    injection h with hm'
    refine ⟨objModify kvs2 "scripts" (fun _ => Json.arr ys), Json.arr ys, hm'.symm,
      ?_, rfl, hi2, Or.inr ⟨ys, rfl⟩⟩
    rw [objGet_objModify_self, hg2]
    rfl
  | null => simp [scriptsSetTestCT] at h
  | bool b' => simp [scriptsSetTestCT] at h
  | num n => simp [scriptsSetTestCT] at h
  | str s => simp [scriptsSetTestCT] at h

theorem patchPackageJSONCore_fix {m : Json} {a : PromptOptions} {m' : Json}
    (h : patchPackageJSONCore m a = Except.ok m') :
    CoreFix m' a ∧ ∀ kvs, m = Json.obj kvs → ∃ kvs', m' = Json.obj kvs' := by
  unfold patchPackageJSONCore at h
  split at h
  · simp at h
  next m1 heq1 =>
    split at h
    · simp at h
    next b heq2 =>
      rcases step1_ok heq1 with ⟨xs, rfl, rfl⟩ | ⟨kvs1, sv1, rfl, hg1, ht1⟩
      · have hb : b = false := by
          cases b with
          | false => rfl
          | true => simp [jsGet, includesNoTest, Option.none_bind] at heq2
        subst hb
        have hm' : m' = Json.arr xs := by
          cases hf : a.framework.isSome with
          | false =>
            rw [hf] at h
            simp only [Bool.false_eq_true, if_false, applyDelTest, ite_false] at h
            injection h with hh
            exact hh.symm
          | true =>
            rw [hf] at h
            simp only [if_true, applyDelTest, Bool.false_eq_true, if_false,
              applySetTestCT] at h
            injection h with hh
            exact hh.symm
        subst hm'
        refine ⟨Or.inl ⟨xs, rfl⟩, ?_⟩
        intro kvs hk
        exact Json.noConfusion hk
      · rw [jsGet_obj, hg1, Option.some_bind] at heq2
        obtain ⟨kvs2, sv2, hm2, hg2, ht2, hi2⟩ := delTest_facts hg1 ht1 heq2
        cases hf : a.framework.isSome with
        | false =>
          rw [hf] at h
          simp only [Bool.false_eq_true, if_false] at h
          injection h with hm'
          refine ⟨Or.inr ⟨kvs2, sv2, ?_, hg2, ht2, hi2, ?_⟩, ?_⟩
          · rw [← hm', hm2]
          · intro hff
            rw [hf] at hff
            cases hff
          · intro kvs hk
            exact ⟨kvs2, by rw [← hm', hm2]⟩
        | true =>
          rw [hf] at h
          simp only [if_true] at h
          rw [hm2] at h
          obtain ⟨kvs', sv', hm', hg', ht', hi', hdisj⟩ := setct_facts hg2 hi2 h
          exact ⟨Or.inr ⟨kvs', sv', hm', hg', ht', hi', fun _ => hdisj⟩,
            fun kvs hk => ⟨kvs', hm'⟩⟩

/-! ### Serializer: no trailing newline -/

theorem natDigits_getLast :
    ∀ n : Nat, ∃ d, d < 10 ∧ (natDigits n).getLast? = some (digitCh d) := by
  intro n
  rw [natDigits]
  by_cases h : n < 10
  · rw [dif_pos h]
    exact ⟨n, h, rfl⟩
  · rw [dif_neg h]
    exact ⟨n % 10, Nat.mod_lt _ (by omega), List.getLast?_concat _⟩

theorem digitCh_ne_nl {d : Nat} (h : d < 10) : digitCh d ≠ '\n' := by
  interval_cases d <;> decide

theorem natDigits_ne_nil (n : Nat) : natDigits n ≠ [] := by
  rw [natDigits]
  by_cases h : n < 10
  · rw [dif_pos h]
    simp
  · rw [dif_neg h]
    simp

theorem renderInt_getLast_ne_nl (i : Int) : (renderInt i).getLast? ≠ some '\n' := by
  cases i with
  | ofNat n =>
    obtain ⟨d, hd, hlast⟩ := natDigits_getLast n
    show (natDigits n).getLast? ≠ some '\n'
    rw [hlast]
    intro hh
    injection hh with hc
    exact digitCh_ne_nl hd hc
  | negSucc n =>
    obtain ⟨d, hd, hlast⟩ := natDigits_getLast (n + 1)
    show ('-' :: natDigits (n + 1)).getLast? ≠ some '\n'
    rw [show ('-' :: natDigits (n + 1)) = ['-'] ++ natDigits (n + 1) from rfl,
      List.getLast?_append_of_ne_nil _ (natDigits_ne_nil (n + 1)), hlast]
    intro hh
    injection hh with hc
    exact digitCh_ne_nl hd hc

theorem serializeJson_getLast_ne_nl (j : Json) (ind : Nat) :
    (serializeJson j ind).getLast? ≠ some '\n' := by
  cases j with
  | null =>
    show ("null".data).getLast? ≠ some '\n'
    decide
  | bool b =>
    cases b with
    | false =>
      show ("false".data).getLast? ≠ some '\n'
      decide
    | true =>
      show ("true".data).getLast? ≠ some '\n'
      decide
  | num i =>
    show (renderInt i).getLast? ≠ some '\n'
    exact renderInt_getLast_ne_nl i
  | str s =>
    show (renderStr s).getLast? ≠ some '\n'
    unfold renderStr
    rw [show ('"' :: (s.data.flatMap escapeChar) ++ ['"']) =
      ('"' :: s.data.flatMap escapeChar) ++ ['"'] from rfl, List.getLast?_concat]
    decide
  | arr xs =>
    cases xs with
    | nil =>
      show (['[', ']'] : List Char).getLast? ≠ some '\n'
      decide
    | cons x xs' =>
      show ((('[' :: '\n' :: serializeItems (x :: xs') (ind + 2)) ++
        ('\n' :: spacesN ind)) ++ [']']).getLast? ≠ some '\n'
      rw [List.getLast?_concat]
      decide
  | obj kvs =>
    cases kvs with
    | nil =>
      show (['\x7b', '\x7d'] : List Char).getLast? ≠ some '\n'
      decide
    | cons kv kvs' =>
      show ((('\x7b' :: '\n' :: serializeFields (kv :: kvs') (ind + 2)) ++
        ('\n' :: spacesN ind)) ++ ['\x7d']).getLast? ≠ some '\n'
      rw [List.getLast?_concat]
      decide

/-! ### The manifest patch: claim theorems -/

theorem patchPackageJSON_some (m : Json) (a : PromptOptions) :
    patchPackageJSON (some m) a =
      (match patchPackageJSONCore m a with
       | Except.error e => Except.error e
       | Except.ok m' => Except.ok (m', stringifyJson m' ++ "\n")) := rfl

/-- C3: the manifest script patch is idempotent — whenever patching a parsed
manifest succeeds with output document `m'` and serialized content `s`,
re-applying the patch (placeholder-test removal, `test-ct` script when a
framework is selected, re-serialization) to the already-patched document
yields exactly the same document and content. -/
theorem manifest_patch_idempotent (m : Json) (a : PromptOptions) (m' : Json) (s : String)
    (h : patchPackageJSON (some m) a = Except.ok (m', s)) :
    patchPackageJSON (some m') a = Except.ok (m', s) := by
  rw [patchPackageJSON_some] at h
  cases hc : patchPackageJSONCore m a with
  | error e =>
    rw [hc] at h
    simp at h
  | ok mm =>
    rw [hc] at h
    simp only [] at h
    injection h with hp
    injection hp with h1 h2
    subst h1
    subst h2
    rw [patchPackageJSON_some,
      patchPackageJSONCore_of_fix (patchPackageJSONCore_fix hc).1]

/-- C3 witness: the patched placeholder manifest (component-testing run) is
a fixed point of the patch. -/
theorem manifest_patch_idempotent_witness :
    patchPackageJSON
        (some (Json.obj [("scripts",
          Json.obj [("test-ct", Json.str "playwright test -c playwright-ct.config.ts")])]))
        answersCT =
      Except.ok
        (Json.obj [("scripts",
          Json.obj [("test-ct", Json.str "playwright test -c playwright-ct.config.ts")])],
         "\x7b\n  \"scripts\": \x7b\n    \"test-ct\": \"playwright test -c playwright-ct.config.ts\"\n  \x7d\n\x7d\n") :=
  manifest_patch_idempotent placeholderManifest answersCT _ _ rfl

/-- C4: patching the manifest whose scripts map is exactly the npm
placeholder `{"test": "echo \"Error: no test specified\" && exit 1"}` with a
component-testing framework selected yields a manifest whose scripts map
has no `test` key and whose `test-ct` key is exactly
`playwright test -c playwright-ct.config.<ext>` for the chosen
configuration extension. -/
theorem manifest_concrete_scenario (td : String) (gha : Bool) (lang : Lang)
    (fw : Framework) (dep brow : Bool) :
    patchPackageJSON (some placeholderManifest) ⟨td, gha, lang, some fw, dep, brow⟩ =
      Except.ok
        (Json.obj [("scripts", Json.obj [("test-ct", Json.str (testCTCommand lang))])],
         "\x7b\n  \"scripts\": \x7b\n    \"test-ct\": \"playwright test -c playwright-ct.config." ++
           languageToFileExtension lang ++ "\"\n  \x7d\n\x7d\n") := by
  cases lang <;> rfl

/-- C7 counterexample: a manifest that cannot be parsed (parse result
`none`, covering a missing or corrupt `package.json`) does crash the run:
`_patchPackageJSON` parses it unguarded and the `JSON.parse` error
propagates, even though the dependency-presence check recovers to
"absent". -/
theorem corrupt_manifest_crashes_patch :
    patchPackageJSON none answersTS =
      Except.error "SyntaxError: JSON.parse: unexpected input" ∧
    hasDependency none "@types/node" = false :=
  ⟨rfl, rfl⟩

/-- C7 amended: for a missing or unparseable manifest the dependency-presence
check used by the command planner returns false (absent) rather than
throwing, so planning never crashes on it; however the manifest patch step
parses the manifest without recovery, so a manifest that cannot be parsed at
patch time makes the run fail there with the `JSON.parse` error. -/
theorem hasDependency_recovers_patch_throws :
    (∀ pkg : String, hasDependency none pkg = false) ∧
    (∀ a : PromptOptions, patchPackageJSON none a =
      Except.error "SyntaxError: JSON.parse: unexpected input") :=
  ⟨fun _ => rfl, fun _ => rfl⟩

theorem core_falsy_scripts_obj {kvs : List (String × Json)} {a : PromptOptions}
    {m' : Json} (hfal : jsTruthyOpt (objGet kvs "scripts") = false)
    (h : patchPackageJSONCore (Json.obj kvs) a = Except.ok m') :
    ∃ kvs' w, m' = Json.obj kvs' ∧ objGet kvs' "scripts" = some (Json.obj w) := by
  unfold patchPackageJSONCore at h
  rw [jsGet_obj, hfal] at h
  simp only [Bool.false_eq_true, if_false] at h
  simp only [setTopScripts] at h
  rw [jsGet_obj, objGet_objSet_self, Option.some_bind] at h
  simp only [jsGet, objGet, includesNoTest] at h
  cases hf : a.framework.isSome with
  | false =>
    rw [hf] at h
    simp only [Bool.false_eq_true, if_false, applyDelTest, ite_false] at h
    injection h with hm'
    exact ⟨objSet kvs "scripts" (Json.obj []), [], hm'.symm,
      objGet_objSet_self kvs "scripts" (Json.obj [])⟩
  | true =>
    rw [hf] at h
    simp only [if_true, applyDelTest, Bool.false_eq_true, ite_false] at h
    simp only [applySetTestCT, objGet_objSet_self, scriptsSetTestCT] at h
    injection h with hm'
    refine ⟨objModify (objSet kvs "scripts" (Json.obj [])) "scripts"
      (fun _ => Json.obj (objSet [] "test-ct"
        (Json.str (testCTCommand a.language)))),
      objSet [] "test-ct" (Json.str (testCTCommand a.language)), hm'.symm, ?_⟩
    rw [objGet_objModify_self, objGet_objSet_self]
    rfl

/-- C10 counterexample: the patch can succeed without producing a scripts
object — the manifest `{"scripts": "x"}` has a truthy non-object scripts
value that is kept as is, and the top-level array manifest `[]` is patched
successfully (the scripts expando assigned to the array is dropped by
`JSON.stringify`) into output that contains no scripts key at all. -/
theorem manifest_patch_scripts_not_object :
    (patchPackageJSON (some (Json.obj [("scripts", Json.str "x")])) answersTS =
      Except.ok (Json.obj [("scripts", Json.str "x")],
        "\x7b\n  \"scripts\": \"x\"\n\x7d\n") ∧
     isObjOpt (jsGet (Json.obj [("scripts", Json.str "x")]) "scripts") = false) ∧
    (patchPackageJSON (some (Json.arr [])) answersTS =
      Except.ok (Json.arr [], "[]\n") ∧
     jsGet (Json.arr []) "scripts" = none) :=
  ⟨⟨rfl, rfl⟩, rfl, rfl⟩

/-- C10 amended: every successful manifest patch writes the document
re-serialized with 2-space indentation plus a single trailing newline (the
serialized form itself never ends in a newline).  When the parsed manifest
is a top-level object, the result is an object containing a `scripts` key,
and the `scripts` value is an object created empty whenever the input's
`scripts` was absent or otherwise falsy — a truthy non-object scripts value
is kept as is.  A top-level array manifest is written back unchanged, with
no scripts key (its scripts expando is dropped by serialization). -/
theorem manifest_patch_output_shape (m : Json) (a : PromptOptions) (m' : Json) (s : String)
    (h : patchPackageJSON (some m) a = Except.ok (m', s)) :
    s = stringifyJson m' ++ "\n" ∧
    (stringifyJson m').data.getLast? ≠ some '\n' ∧
    (∀ kvs, m = Json.obj kvs →
      ∃ kvs' sv', m' = Json.obj kvs' ∧ objGet kvs' "scripts" = some sv') ∧
    (∀ kvs, m = Json.obj kvs → jsTruthyOpt (jsGet m "scripts") = false →
      ∃ kvs' w, m' = Json.obj kvs' ∧ objGet kvs' "scripts" = some (Json.obj w)) ∧
    (∀ xs, m = Json.arr xs → m' = Json.arr xs) := by
  rw [patchPackageJSON_some] at h
  cases hc : patchPackageJSONCore m a with
  | error e =>
    rw [hc] at h
    simp at h
  | ok mm =>
    rw [hc] at h
    simp only [] at h
    injection h with hp
    injection hp with h1 h2
    subst h1
    subst h2
    obtain ⟨hfix, hobj⟩ := patchPackageJSONCore_fix hc
    refine ⟨rfl, ?_, ?_, ?_, ?_⟩
    · show (serializeJson mm 0).getLast? ≠ some '\n'
      exact serializeJson_getLast_ne_nl mm 0
    · intro kvs hm
      subst hm
      obtain ⟨kvs', hkvs'⟩ := hobj kvs rfl
      subst hkvs'
      rcases hfix with ⟨xs, habs⟩ | ⟨kvs'', sv', heq, hget, _, _, _⟩
      · exact Json.noConfusion habs
      · injection heq with he
        exact ⟨kvs', sv', rfl, by rw [he]; exact hget⟩
    · intro kvs hm hfal
      subst hm
      rw [jsGet_obj] at hfal
      exact core_falsy_scripts_obj hfal hc
    · intro xs hm
      subst hm
      exact core_arr_out hc

/-- C10 witness: the empty-object manifest gets an empty scripts object and
is written as its 2-space serialization plus one newline. -/
theorem manifest_patch_output_shape_witness :
    "\x7b\n  \"scripts\": \x7b\x7d\n\x7d\n" =
        stringifyJson (Json.obj [("scripts", Json.obj [])]) ++ "\n" ∧
    (stringifyJson (Json.obj [("scripts", Json.obj [])])).data.getLast? ≠ some '\n' ∧
    (∀ kvs, (Json.obj [] : Json) = Json.obj kvs →
      ∃ kvs' sv', Json.obj [("scripts", Json.obj [])] = Json.obj kvs' ∧
        objGet kvs' "scripts" = some sv') ∧
    (∀ kvs, (Json.obj [] : Json) = Json.obj kvs →
      jsTruthyOpt (jsGet (Json.obj []) "scripts") = false →
      ∃ kvs' w, Json.obj [("scripts", Json.obj [])] = Json.obj kvs' ∧
        objGet kvs' "scripts" = some (Json.obj w)) ∧
    (∀ xs, (Json.obj [] : Json) = Json.arr xs →
      Json.obj [("scripts", Json.obj [])] = Json.arr xs) :=
  manifest_patch_output_shape (Json.obj []) answersTS
    (Json.obj [("scripts", Json.obj [])]) "\x7b\n  \"scripts\": \x7b\x7d\n\x7d\n" rfl
